import Mathlib

/-!
Shallow embedding of the stock/price synchronisation scripts
(`seller.py` for the Ozon marketplace, `market.py` for the Yandex
marketplace) and proofs of the testable properties of their
reconciliation, chunking, pagination and upload logic.

Feed rows are dictionaries with the keys "Код" (product code),
"Количество" (quantity indicator) and "Цена" (price text); the code reads
them through `str(...)`, so the embedding models each field as a string.
Machine-level details that the scripts never rely on (HTTP transport,
spreadsheet parsing, environment loading) stay outside the model; the
paginated listing endpoints are modelled as abstract response sequences.
-/

/-- Feed record: one row of the upstream inventory spreadsheet.
`code` models `str(watch.get("Код"))`, `quantity` models
`str(watch.get("Количество"))`, `price` models `watch.get("Цена")`. -/
structure Watch where
  code : String
  quantity : String
  price : String
deriving DecidableEq

/-- Python `str.strip()` / the whitespace trimming performed by `int()`:
drop whitespace characters from both ends of a character list. -/
def pyTrim (l : List Char) : List Char :=
  ((l.dropWhile Char.isWhitespace).reverse.dropWhile Char.isWhitespace).reverse

/-- Value of a list of decimal digit characters, most significant first. -/
def digitsToNat (ds : List Char) : Nat :=
  ds.foldl (fun a c => a * 10 + (c.toNat - 48)) 0

/-- Model of the Python built-in `int()` applied to a string: surrounding
whitespace is ignored, an optional sign is allowed, and the rest must be
a nonempty run of decimal digits; any other string makes `int()` raise
`ValueError`, modelled as `none`.  (Underscore digit grouping, accepted
by recent Python, is not modelled; the feed never uses it.) -/
def pythonInt? (s : String) : Option Int :=
  match pyTrim s.toList with
  | [] => none
  | c :: cs =>
    if c = '-' then
      if !cs.isEmpty && cs.all Char.isDigit then some (-(digitsToNat cs : Int)) else none
    else if c = '+' then
      if !cs.isEmpty && cs.all Char.isDigit then some (digitsToNat cs) else none
    else
      if (c :: cs).all Char.isDigit then some (digitsToNat (c :: cs)) else none

/-- Python `str.split(".")`: split a character list at every occurrence of
`'.'`, keeping empty components (so the result is always nonempty). -/
def pySplitDot : List Char → List (List Char)
  | [] => [[]]
  | c :: cs =>
    match pySplitDot cs with
    | [] => [[]]
    | f :: rest => if c = '.' then [] :: f :: rest else (c :: f) :: rest

/-- `price_conversion` from `seller.py` (also imported by `market.py`):
`re.sub("[^0-9]", "", price.split(".")[0])` — take the part before the
first `'.'` and keep only the ASCII decimal digits. -/
def price_conversion (price : String) : String :=
  String.mk (((pySplitDot price.toList).headD []).filter Char.isDigit)

/-- `divide` from `seller.py`: `for i in range(0, len(lst), n): yield
lst[i : i + n]`, materialised as the list of successive slices of length
`n` (the last slice may be shorter).  Python raises `ValueError` on step
`n = 0`; the model returns `[]` there, and every property below assumes
`1 ≤ n`. -/
def divide (lst : List α) (n : Nat) : List (List α) :=
  if h : lst.isEmpty ∨ n = 0 then []
  else lst.take n :: divide (lst.drop n) n
termination_by lst.length
decreasing_by
  simp only [List.isEmpty_iff, not_or] at h
  have hpos : 0 < lst.length := List.length_pos.mpr h.1
  simp only [List.length_drop]
  omega

/-- Quantity indicator rule shared verbatim by `seller.create_stocks` and
`market.create_stocks`: `">10"` means 100, `"1"` means 0, anything else
is fed to `int()` (which raises on a non-numeric string). -/
def stockValue (count : String) : Option Int :=
  if count = ">10" then some 100
  else if count = "1" then some 0
  else pythonInt? count

/-- Does some feed record carry this product code? -/
def matchedBy (watch_remnants : List Watch) (id : String) : Bool :=
  watch_remnants.any (fun w => w.code == id)

namespace Seller

/-- One element of the `stocks` payload built by `seller.create_stocks`:
`{"offer_id": ..., "stock": ...}`. -/
structure StockEntry where
  offer_id : String
  stock : Int
deriving DecidableEq

/-- One element of the `prices` payload built by `seller.create_prices`. -/
structure PriceEntry where
  auto_action_enabled : String
  currency_code : String
  offer_id : String
  old_price : String
  price : String
deriving DecidableEq

/-- The first loop of `seller.create_stocks`: walk the feed; every record
whose code is in `offer_ids` contributes a stock entry and removes the
first occurrence of its code from `offer_ids` (`list.remove`).  Returns
the emitted entries together with the final state of `offer_ids`, or
`none` when `int()` raises on the quantity of a matched record. -/
def create_stocks_loop : List Watch → List String → Option (List StockEntry × List String)
  | [], offer_ids => some ([], offer_ids)
  | w :: ws, offer_ids =>
    if w.code ∈ offer_ids then
      match stockValue w.quantity with
      | none => none
      | some q =>
        match create_stocks_loop ws (offer_ids.erase w.code) with
        | none => none
        | some (st, rem) => some (⟨w.code, q⟩ :: st, rem)
    else
      create_stocks_loop ws offer_ids

/-- `seller.create_stocks`: after the feed loop, every offer id still in
the list gets a zero-stock entry appended. -/
def create_stocks (watch_remnants : List Watch) (offer_ids : List String) :
    Option (List StockEntry) :=
  match create_stocks_loop watch_remnants offer_ids with
  | none => none
  | some (stocks, rem) => some (stocks ++ rem.map (fun id => ⟨id, 0⟩))

/-- `seller.create_prices`: one price entry per feed record whose code is
in `offer_ids`; `offer_ids` is only read, never mutated, and unmatched
ids produce nothing. -/
def create_prices : List Watch → List String → List PriceEntry
  | [], _ => []
  | w :: ws, offer_ids =>
    if w.code ∈ offer_ids then
      ⟨"UNKNOWN", "RUB", w.code, "0", price_conversion w.price⟩ :: create_prices ws offer_ids
    else
      create_prices ws offer_ids

end Seller

namespace Market

/-- One item of a Yandex stock entry: `{"count": ..., "type": "FIT",
"updatedAt": date}`. -/
structure StockItem where
  count : Int
  type : String
  updatedAt : String
deriving DecidableEq

/-- One element of the `stocks` payload built by `market.create_stocks`. -/
structure StockEntry where
  sku : String
  warehouseId : String
  items : List StockItem
deriving DecidableEq

/-- One element of the `prices` payload built by `market.create_prices`:
`{"id": ..., "price": {"value": int(price_conversion(...)), "currencyId":
"RUR"}}`. -/
structure PriceEntry where
  id : String
  value : Int
  currencyId : String
deriving DecidableEq

/-- The first loop of `market.create_stocks`; same reconciliation as the
Ozon version but the entry carries the warehouse id and the timestamp
`date` computed once at the start of the call. -/
def create_stocks_loop (warehouse_id date : String) :
    List Watch → List String → Option (List StockEntry × List String)
  | [], offer_ids => some ([], offer_ids)
  | w :: ws, offer_ids =>
    if w.code ∈ offer_ids then
      match stockValue w.quantity with
      | none => none
      | some q =>
        match create_stocks_loop warehouse_id date ws (offer_ids.erase w.code) with
        | none => none
        | some (st, rem) => some (⟨w.code, warehouse_id, [⟨q, "FIT", date⟩]⟩ :: st, rem)
    else
      create_stocks_loop warehouse_id date ws offer_ids

/-- `market.create_stocks`: feed loop, then a zero-count entry for every
offer id left in the list. -/
def create_stocks (warehouse_id date : String) (watch_remnants : List Watch)
    (offer_ids : List String) : Option (List StockEntry) :=
  match create_stocks_loop warehouse_id date watch_remnants offer_ids with
  | none => none
  | some (stocks, rem) =>
    some (stocks ++ rem.map (fun id => ⟨id, warehouse_id, [⟨0, "FIT", date⟩]⟩))

/-- `market.create_prices`: one price entry per matched feed record;
`int(price_conversion(...))` can raise, modelled by `none`. -/
def create_prices : List Watch → List String → Option (List PriceEntry)
  | [], _ => some []
  | w :: ws, offer_ids =>
    if w.code ∈ offer_ids then
      match pythonInt? (price_conversion w.price) with
      | none => none
      | some v =>
        match create_prices ws offer_ids with
        | none => none
        | some rest => some (⟨w.code, v, "RUR"⟩ :: rest)
    else
      create_prices ws offer_ids

end Market

namespace Seller

/-- One item of an Ozon product listing page. -/
structure Product where
  offer_id : String
deriving DecidableEq

/-- The `result` object of one `get_product_list` response: the items of
the page, the advertised `total` and the continuation cursor `last_id`. -/
structure ListResult where
  items : List Product
  total : Nat
  last_id : String
deriving DecidableEq

/-- The `while True` loop of `seller.get_offer_ids`, with the API
abstracted as the sequence `pages` of successive responses: extend the
accumulator with the items of the page and stop once the latest advertised
`total` equals the accumulated length.  `fuel` bounds the number of
iterations; `none` means the loop did not stop within `fuel` calls. -/
def get_offer_ids_loop (pages : Nat → ListResult) :
    Nat → Nat → List Product → Option (List Product)
  | 0, _, _ => none
  | fuel + 1, i, acc =>
    let acc2 := acc ++ (pages i).items
    if (pages i).total = acc2.length then some acc2
    else get_offer_ids_loop pages fuel (i + 1) acc2

/-- `seller.get_offer_ids`: run the pagination loop from an empty
accumulator, then project each product to its `offer_id`. -/
def get_offer_ids (pages : Nat → ListResult) (fuel : Nat) : Option (List String) :=
  (get_offer_ids_loop pages fuel 0 []).map (List.map Product.offer_id)

/-- Total number of items on `m` consecutive pages starting at page `i`. -/
def pagesLen (pages : Nat → ListResult) : Nat → Nat → Nat
  | _, 0 => 0
  | i, m + 1 => (pages i).items.length + pagesLen pages (i + 1) m

/-- The pure part of `seller.upload_stocks`: build the stock payload,
then split it into the all-entries list and the sublist of entries whose
`stock` is nonzero (`filter(lambda stock: stock.get("stock") != 0, ...)`);
the function returns the pair `(not_empty, stocks)`. -/
def upload_stocks (watch_remnants : List Watch) (offer_ids : List String) :
    Option (List StockEntry × List StockEntry) :=
  match create_stocks watch_remnants offer_ids with
  | none => none
  | some stocks => some (stocks.filter (fun stock => stock.stock != 0), stocks)

end Seller

namespace Market

/-- One entry of a Yandex `offer-mapping-entries` page: the model only
keeps the `offer.shopSku` field the script reads. -/
structure Offer where
  shopSku : String
deriving DecidableEq

/-- One entry of the listing page, holding its `offer` object. -/
structure MappingEntry where
  offer : Offer
deriving DecidableEq

/-- The `result` object of one `get_product_list` response: the
`offerMappingEntries` of the page and `paging.nextPageToken` (`""` models an empty or
absent token, which is falsy in the `if not page` test). -/
structure ListResult where
  offerMappingEntries : List MappingEntry
  nextPageToken : String
deriving DecidableEq

/-- The `while True` loop of `market.get_offer_ids`: extend the
accumulator with the entries of the page and stop as soon as the returned
`nextPageToken` is falsy.  `fuel` bounds the number of iterations. -/
def get_offer_ids_loop (pages : Nat → ListResult) :
    Nat → Nat → List MappingEntry → Option (List MappingEntry)
  | 0, _, _ => none
  | fuel + 1, i, acc =>
    let acc2 := acc ++ (pages i).offerMappingEntries
    if (pages i).nextPageToken = "" then some acc2
    else get_offer_ids_loop pages fuel (i + 1) acc2

/-- `market.get_offer_ids`: run the pagination loop, then project each
entry to `offer.shopSku`. -/
def get_offer_ids (pages : Nat → ListResult) (fuel : Nat) : Option (List String) :=
  (get_offer_ids_loop pages fuel 0 []).map (List.map (fun e => e.offer.shopSku))

/-- Count of the first item of a stock entry, as read by the filter in
`market.upload_stocks` (`stock.get("items")[0].get("count")`); every
entry built by `create_stocks` has exactly one item. -/
def firstCount (e : StockEntry) : Int :=
  (e.items.headD ⟨0, "", ""⟩).count

/-- The pure part of `market.upload_stocks`: build the payload and pair
the sublist of entries with nonzero first-item count with the full
list. -/
def upload_stocks (warehouse_id date : String) (watch_remnants : List Watch)
    (offer_ids : List String) : Option (List StockEntry × List StockEntry) :=
  match create_stocks warehouse_id date watch_remnants offer_ids with
  | none => none
  | some stocks => some (stocks.filter (fun stock => firstCount stock != 0), stocks)

end Market

/-- The error categories distinguished by the `except` clauses of the
`main` entry points: `requests.exceptions.ReadTimeout`,
`requests.exceptions.ConnectionError`, and any other exception. -/
inductive PyErr
  | readTimeout
  | connectionError (msg : String)
  | other (msg : String)
deriving DecidableEq

/-- Outcome of one upload API call, abstracted as a function of the
submitted chunk: `none` is success, `some e` is a raised exception. -/
def UploadOutcome (α : Type) := List α → Option PyErr

/-- The batch upload loop (`for some_price in list(divide(...)):
update_price(...)`): issue one call per chunk in order, stop at the
first raised exception and propagate it.  Returns the trace of chunks
actually submitted together with the propagated error, if any. -/
def runUpload (outcome : UploadOutcome α) : List (List α) → List (List α) × Option PyErr
  | [] => ([], none)
  | c :: cs =>
    match outcome c with
    | some e => ([c], some e)
    | none =>
      let r := runUpload outcome cs
      (c :: r.1, r.2)

/-- The chunked price upload of `seller.upload_prices` / `seller.main`:
the price payload is divided into chunks of `sz` and each chunk is
submitted by one `update_price` call. -/
def upload_prices_calls (watch_remnants : List Watch) (offer_ids : List String)
    (sz : Nat) (outcome : UploadOutcome Seller.PriceEntry) :
    List (List Seller.PriceEntry) × Option PyErr :=
  runUpload outcome (divide (Seller.create_prices watch_remnants offer_ids) sz)

/-- The `try/except` structure of `seller.main` (and `market.main`):
a successful body prints nothing; `ReadTimeout`, `ConnectionError` and
the catch-all `Exception` branch each turn the error into a printed
message, and no exception escapes `main`. -/
def mainHandle : Except PyErr Unit → Option String
  | Except.ok _ => none
  | Except.error PyErr.readTimeout => some "Превышено время ожидания..."
  | Except.error (PyErr.connectionError m) => some (m ++ " Ошибка соединения")
  | Except.error (PyErr.other m) => some (m ++ " ERROR_2")

/-! Helper lemmas -/

theorem pySplitDot_ne_nil (l : List Char) : pySplitDot l ≠ [] := by
  induction l with
  | nil => simp [pySplitDot]
  | cons c cs ih =>
    cases h : pySplitDot cs with
    | nil => exact absurd h ih
    | cons f rest =>
      simp only [pySplitDot, h]
      split <;> simp

theorem pySplitDot_headD (l : List Char) :
    (pySplitDot l).headD [] = l.takeWhile (fun c => c != '.') := by
  induction l with
  | nil => rfl
  | cons c cs ih =>
    cases h : pySplitDot cs with
    | nil => exact absurd h (pySplitDot_ne_nil cs)
    | cons f rest =>
      rw [h] at ih
      simp only [List.headD_cons] at ih
      by_cases hc : c = '.'
      · simp [pySplitDot, h, hc]
      · simp [pySplitDot, h, hc, List.takeWhile_cons]
        exact ih

/-- C4: for every input string, `price_conversion` truncates at the first
decimal separator `'.'` and then removes every non-digit character; in
particular the price text 5990 rub with an apostrophe group separator
maps to `"5990"` and
`price_conversion("1200 руб.") = "1200"`. -/
theorem price_conversion_truncates_then_strips :
    (∀ s : String,
      price_conversion s =
        String.mk ((s.toList.takeWhile (fun c => c != '.')).filter Char.isDigit)) ∧
    price_conversion "5\x27990.00 руб." = "5990" ∧
    price_conversion "1200 руб." = "1200" := by
  refine ⟨fun s => ?_, by decide, by decide⟩
  unfold price_conversion
  rw [pySplitDot_headD]

theorem divide_nil (n : Nat) : divide ([] : List α) n = [] := by
  rw [divide]
  simp

theorem divide_cons_eq (lst : List α) (n : Nat) (h1 : lst ≠ []) (h2 : n ≠ 0) :
    divide lst n = lst.take n :: divide (lst.drop n) n := by
  rw [divide]
  simp [List.isEmpty_iff, h1, h2]

theorem ceil_div_step (L n : Nat) (hL : 1 ≤ L) (hn : 1 ≤ n) :
    (L + n - 1) / n = (L - n + n - 1) / n + 1 := by
  have e1 : L + n - 1 = (L - 1) + n := by omega
  rw [e1, Nat.add_div_right _ (by omega : 0 < n)]
  rcases le_or_lt L n with h | h
  · have e2 : L - n = 0 := by omega
    rw [e2]
    have e3 : (0 + n - 1) / n = 0 := Nat.div_eq_of_lt (by omega)
    have e4 : (L - 1) / n = 0 := Nat.div_eq_of_lt (by omega)
    rw [e3, e4]
  · have e3 : L - n + n - 1 = (L - n - 1) + n := by omega
    have e4 : L - 1 = (L - n - 1) + n := by omega
    rw [e3, e4, Nat.add_div_right _ (by omega : 0 < n)]

theorem divide_length (lst : List α) (n : Nat) (hn : n ≠ 0) :
    (divide lst n).length = (lst.length + n - 1) / n := by
  induction lst, n using divide.induct with
  | case1 lst n h =>
    rcases h with h | h
    · rw [List.isEmpty_iff] at h
      subst h
      rw [divide_nil]
      simp [Nat.div_eq_of_lt (by omega : n - 1 < n)]
    · exact absurd h hn
  | case2 lst n h ih =>
    rw [not_or, List.isEmpty_iff] at h
    rw [divide_cons_eq lst n h.1 h.2, List.length_cons, ih hn, List.length_drop]
    have hL : 1 ≤ lst.length := List.length_pos.mpr h.1
    exact (ceil_div_step lst.length n hL (by omega)).symm

theorem divide_flatten (lst : List α) (n : Nat) (hn : n ≠ 0) :
    (divide lst n).flatten = lst := by
  induction lst, n using divide.induct with
  | case1 lst n h =>
    rcases h with h | h
    · rw [List.isEmpty_iff] at h
      subst h
      rw [divide_nil]
      rfl
    · exact absurd h hn
  | case2 lst n h ih =>
    rw [not_or, List.isEmpty_iff] at h
    rw [divide_cons_eq lst n h.1 h.2, List.flatten_cons, ih hn, List.take_append_drop]

theorem divide_ne_nil (lst : List α) (n : Nat) (h1 : lst ≠ []) (h2 : n ≠ 0) :
    divide lst n ≠ [] := by
  rw [divide_cons_eq lst n h1 h2]
  simp

theorem divide_dropLast_length (lst : List α) (n : Nat) (hn : n ≠ 0) :
    ∀ c ∈ (divide lst n).dropLast, c.length = n := by
  induction lst, n using divide.induct with
  | case1 lst n h =>
    rcases h with h | h
    · rw [List.isEmpty_iff] at h
      subst h
      rw [divide_nil]
      simp
    · exact absurd h hn
  | case2 lst n h ih =>
    rw [not_or, List.isEmpty_iff] at h
    rw [divide_cons_eq lst n h.1 h.2]
    by_cases hd : lst.drop n = []
    · rw [hd, divide_nil]
      simp
    · rw [List.dropLast_cons_of_ne_nil (divide_ne_nil _ n hd hn)]
      intro c hc
      rcases List.mem_cons.mp hc with rfl | hc
      · rw [List.length_take]
        have hlen : n ≤ lst.length := by
          have := List.length_pos.mpr hd
          rw [List.length_drop] at this
          omega
        omega
      · exact ih hn c hc

theorem divide_getLast (lst : List α) (n : Nat) (hn : n ≠ 0)
    (hm : lst.length % n ≠ 0) :
    ∃ c, (divide lst n).getLast? = some c ∧ c.length = lst.length % n := by
  induction lst, n using divide.induct with
  | case1 lst n h =>
    rcases h with h | h
    · rw [List.isEmpty_iff] at h
      subst h
      simp at hm
    · exact absurd h hn
  | case2 lst n h ih =>
    rw [not_or, List.isEmpty_iff] at h
    rw [divide_cons_eq lst n h.1 h.2]
    by_cases hd : lst.drop n = []
    · have h0 : lst.length - n = 0 := by
        rw [← List.length_drop, hd]
        rfl
      have hle : lst.length ≤ n := by omega
      have hlt : lst.length < n := by
        rcases eq_or_lt_of_le hle with heq | hlt
        · rw [heq, Nat.mod_self] at hm
          exact absurd rfl hm
        · exact hlt
      refine ⟨lst, ?_, ?_⟩
      · rw [hd, divide_nil, List.take_of_length_le hle]
        rfl
      · exact (Nat.mod_eq_of_lt hlt).symm
    · have hgt : n < lst.length := by
        have := List.length_pos.mpr hd
        rw [List.length_drop] at this
        omega
      have hshift : (lst.length - n) % n = lst.length % n := by
        conv_rhs => rw [show lst.length = (lst.length - n) + n by omega]
        rw [Nat.add_mod_right]
      have hmod2 : (lst.drop n).length % n ≠ 0 := by
        rw [List.length_drop, hshift]
        exact hm
      obtain ⟨c, hc1, hc2⟩ := ih hn hmod2
      refine ⟨c, ?_, ?_⟩
      · have hne := divide_ne_nil (lst.drop n) n hd hn
        cases hD : divide (lst.drop n) n with
        | nil => exact absurd hD hne
        | cons d ds =>
          rw [hD] at hc1
          rw [List.getLast?_cons_cons]
          exact hc1
      · rw [hc2, List.length_drop, hshift]

/-- C2: for every list `lst` and chunk size `n ≥ 1`, `divide lst n`
yields exactly `⌈len(lst)/n⌉` chunks, every chunk except possibly the
last has length `n`, the last has length `len(lst) % n` when that is
nonzero, and concatenating the chunks in order reproduces `lst`. -/
theorem divide_batches_exact (lst : List α) (n : Nat) (hn : 1 ≤ n) :
    (divide lst n).length = (lst.length + n - 1) / n ∧
    (∀ c ∈ (divide lst n).dropLast, c.length = n) ∧
    (lst.length % n ≠ 0 →
      ∃ c, (divide lst n).getLast? = some c ∧ c.length = lst.length % n) ∧
    (divide lst n).flatten = lst := by
  have hn2 : n ≠ 0 := by omega
  exact ⟨divide_length lst n hn2, divide_dropLast_length lst n hn2,
    divide_getLast lst n hn2, divide_flatten lst n hn2⟩

/-- Concrete instance of `divide_batches_exact` at `lst = [1,2,3,4,5]`,
`n = 2`. -/
theorem divide_batches_exact_witness :
    1 ≤ 2 ∧
    ((divide [1,2,3,4,5] 2).length = (([1,2,3,4,5] : List Nat).length + 2 - 1) / 2 ∧
     (∀ c ∈ (divide [1,2,3,4,5] 2).dropLast, c.length = 2) ∧
     (([1,2,3,4,5] : List Nat).length % 2 ≠ 0 →
       ∃ c, (divide [1,2,3,4,5] 2).getLast? = some c ∧
         c.length = ([1,2,3,4,5] : List Nat).length % 2) ∧
     (divide [1,2,3,4,5] 2).flatten = [1,2,3,4,5]) :=
  ⟨by decide, divide_batches_exact [1,2,3,4,5] 2 (by decide)⟩

theorem seller_loop_rem :
    ∀ (ws : List Watch) (ids : List String) (st : List Seller.StockEntry)
      (rem : List String),
    ids.Nodup → Seller.create_stocks_loop ws ids = some (st, rem) →
    rem = ids.filter (fun id => !(matchedBy ws id)) := by
  intro ws
  induction ws with
  | nil =>
    intro ids st rem hnd h
    simp only [Seller.create_stocks_loop, Option.some.injEq, Prod.mk.injEq] at h
    rw [← h.2]
    simp [matchedBy]
  | cons w ws2 ih =>
    intro ids st rem hnd h
    simp only [Seller.create_stocks_loop] at h
    by_cases hm : w.code ∈ ids
    · rw [if_pos hm] at h
      cases hq : stockValue w.quantity with
      | none =>
        rw [hq] at h
        simp at h
      | some q =>
        rw [hq] at h
        cases hr : Seller.create_stocks_loop ws2 (ids.erase w.code) with
        | none =>
          rw [hr] at h
          simp at h
        | some pr =>
          obtain ⟨st2, rem2⟩ := pr
          rw [hr] at h
          simp only [Option.some.injEq, Prod.mk.injEq] at h
          rw [← h.2]
          rw [ih (ids.erase w.code) st2 rem2 (hnd.erase w.code) hr]
          rw [hnd.erase_eq_filter w.code, List.filter_filter]
          apply List.filter_congr
          intro x hx
          simp only [matchedBy, List.any_cons, Bool.not_or, Bool.and_comm]
          congr 1
          simp [beq_eq_false_iff_ne, bne, eq_comm]
    · rw [if_neg hm] at h
      rw [ih ids st rem hnd h]
      apply List.filter_congr
      intro x hx
      have hne : (w.code == x) = false := by
        simp only [beq_eq_false_iff_ne]
        intro he
        exact hm (he ▸ hx)
      simp [matchedBy, List.any_cons, hne]

theorem market_loop_rem (wid date : String) :
    ∀ (ws : List Watch) (ids : List String) (st : List Market.StockEntry)
      (rem : List String),
    ids.Nodup → Market.create_stocks_loop wid date ws ids = some (st, rem) →
    rem = ids.filter (fun id => !(matchedBy ws id)) := by
  intro ws
  induction ws with
  | nil =>
    intro ids st rem hnd h
    simp only [Market.create_stocks_loop, Option.some.injEq, Prod.mk.injEq] at h
    rw [← h.2]
    simp [matchedBy]
  | cons w ws2 ih =>
    intro ids st rem hnd h
    simp only [Market.create_stocks_loop] at h
    by_cases hm : w.code ∈ ids
    · rw [if_pos hm] at h
      cases hq : stockValue w.quantity with
      | none =>
        rw [hq] at h
        simp at h
      | some q =>
        rw [hq] at h
        cases hr : Market.create_stocks_loop wid date ws2 (ids.erase w.code) with
        | none =>
          rw [hr] at h
          simp at h
        | some pr =>
          obtain ⟨st2, rem2⟩ := pr
          rw [hr] at h
          simp only [Option.some.injEq, Prod.mk.injEq] at h
          rw [← h.2]
          rw [ih (ids.erase w.code) st2 rem2 (hnd.erase w.code) hr]
          rw [hnd.erase_eq_filter w.code, List.filter_filter]
          apply List.filter_congr
          intro x hx
          simp only [matchedBy, List.any_cons, Bool.not_or, Bool.and_comm]
          congr 1
          simp [beq_eq_false_iff_ne, bne, eq_comm]
    · rw [if_neg hm] at h
      rw [ih ids st rem hnd h]
      apply List.filter_congr
      intro x hx
      have hne : (w.code == x) = false := by
        simp only [beq_eq_false_iff_ne]
        intro he
        exact hm (he ▸ hx)
      simp [matchedBy, List.any_cons, hne]

/-- C1 (amended with pairwise-distinct offer ids, matching the data
model, where an `OfferId` is unique): a successful `create_stocks` emits its matched
entries followed by exactly one zero-quantity entry per known offer id
whose code matches no feed record, and no zero-fill entry for any other
id — in both the Ozon and Yandex reconcilers. -/
theorem create_stocks_zero_fill_exact
    (watch_remnants : List Watch) (offer_ids : List String) (wid date : String)
    (hnd : offer_ids.Nodup) :
    (∀ st rem, Seller.create_stocks_loop watch_remnants offer_ids = some (st, rem) →
      Seller.create_stocks watch_remnants offer_ids =
        some (st ++ (offer_ids.filter (fun id => !(matchedBy watch_remnants id))).map
          (fun id => ⟨id, 0⟩)) ∧
      (offer_ids.filter (fun id => !(matchedBy watch_remnants id))).Nodup) ∧
    (∀ st rem, Market.create_stocks_loop wid date watch_remnants offer_ids = some (st, rem) →
      Market.create_stocks wid date watch_remnants offer_ids =
        some (st ++ (offer_ids.filter (fun id => !(matchedBy watch_remnants id))).map
          (fun id => ⟨id, wid, [⟨0, "FIT", date⟩]⟩)) ∧
      (offer_ids.filter (fun id => !(matchedBy watch_remnants id))).Nodup) := by
  constructor
  · intro st rem h
    have hrem := seller_loop_rem watch_remnants offer_ids st rem hnd h
    subst hrem
    refine ⟨?_, hnd.filter _⟩
    simp [Seller.create_stocks, h]
  · intro st rem h
    have hrem := market_loop_rem wid date watch_remnants offer_ids st rem hnd h
    subst hrem
    refine ⟨?_, hnd.filter _⟩
    simp [Market.create_stocks, h]

/-- Concrete instance of `create_stocks_zero_fill_exact`: feed record for
"a", known ids ["a", "b"]; only "b" is zero-filled. -/
theorem create_stocks_zero_fill_exact_witness :
    (["a", "b"] : List String).Nodup ∧
    (Seller.create_stocks [⟨"a", "5", "p"⟩] ["a", "b"] =
      some ([⟨"a", 5⟩] ++ ((["a", "b"] : List String).filter
        (fun id => !(matchedBy [⟨"a", "5", "p"⟩] id))).map
          (fun id => (⟨id, 0⟩ : Seller.StockEntry))) ∧
     ((["a", "b"] : List String).filter
        (fun id => !(matchedBy [⟨"a", "5", "p"⟩] id))).Nodup) :=
  ⟨by decide,
   (create_stocks_zero_fill_exact [⟨"a", "5", "p"⟩] ["a", "b"] "W" "D"
     (by decide)).1 [⟨"a", 5⟩] ["b"] (by decide)⟩

/-- C1 as stated is false for a duplicated known offer id: with feed
record "a" (quantity 5) and known ids ["a", "a"], the call emits a
zero-quantity entry for "a" even though "a" matches a feed record. -/
theorem create_stocks_zero_fill_duplicate_ids :
    Seller.create_stocks [⟨"a", "5", "p"⟩] ["a", "a"] =
      some [⟨"a", 5⟩, ⟨"a", 0⟩] ∧
    matchedBy [⟨"a", "5", "p"⟩] "a" = true ∧
    ¬(∀ e ∈ (Seller.create_stocks [⟨"a", "5", "p"⟩] ["a", "a"]).getD [],
        e.stock = 0 → matchedBy [⟨"a", "5", "p"⟩] e.offer_id = false) := by
  refine ⟨by decide, by decide, ?_⟩
  intro hall
  have := hall ⟨"a", 0⟩ (by decide) rfl
  exact absurd this (by decide)

/-- C6 (amended with pairwise-distinct offer ids): a successful
`create_stocks` call leaves the known-offer list holding exactly the
originally-known ids whose code matches no feed record — each matched id
is consumed — in both reconcilers.  The feed list is only read by the
loop, never written. -/
theorem create_stocks_consumes_matched
    (watch_remnants : List Watch) (offer_ids : List String) (wid date : String)
    (hnd : offer_ids.Nodup) :
    (∀ st rem, Seller.create_stocks_loop watch_remnants offer_ids = some (st, rem) →
      rem = offer_ids.filter (fun id => !(matchedBy watch_remnants id))) ∧
    (∀ st rem, Market.create_stocks_loop wid date watch_remnants offer_ids = some (st, rem) →
      rem = offer_ids.filter (fun id => !(matchedBy watch_remnants id))) :=
  ⟨fun st rem h => seller_loop_rem watch_remnants offer_ids st rem hnd h,
   fun st rem h => market_loop_rem wid date watch_remnants offer_ids st rem hnd h⟩

/-- Concrete instance of `create_stocks_consumes_matched`: feed record
"b", known ids ["b", "c"]; "b" is consumed, "c" survives. -/
theorem create_stocks_consumes_matched_witness :
    (["b", "c"] : List String).Nodup ∧
    (["c"] : List String) = (["b", "c"] : List String).filter
      (fun id => !(matchedBy [⟨"b", "3", "p"⟩] id)) :=
  ⟨by decide,
   (create_stocks_consumes_matched [⟨"b", "3", "p"⟩] ["b", "c"] "W" "D"
     (by decide)).1 [⟨"b", 3⟩] ["c"] (by decide)⟩

/-- C6 as stated is false for a duplicated known offer id: with feed
record "b" and known ids ["b", "b"], only the first occurrence of "b" is
consumed, so the final list still contains the matched id "b". -/
theorem create_stocks_consumes_duplicate_ids :
    Seller.create_stocks_loop [⟨"b", "3", "p"⟩] ["b", "b"] =
      some ([⟨"b", 3⟩], ["b"]) ∧
    matchedBy [⟨"b", "3", "p"⟩] "b" = true ∧
    (["b"] : List String) ≠ (["b", "b"] : List String).filter
      (fun id => !(matchedBy [⟨"b", "3", "p"⟩] id)) := by
  refine ⟨by decide, by decide, by decide⟩

theorem seller_create_prices_nil (ws : List Watch) (ids : List String)
    (h : ∀ w ∈ ws, w.code ∉ ids) : Seller.create_prices ws ids = [] := by
  induction ws with
  | nil => rfl
  | cons w ws2 ih =>
    simp only [Seller.create_prices]
    rw [if_neg (h w (List.mem_cons_self w ws2))]
    exact ih (fun x hx => h x (List.mem_cons_of_mem w hx))

/-- C10 (amended with pairwise-distinct offer ids): after a successful
`create_stocks` run has consumed the matched ids from the offer-id list
(as `seller.main` does), `create_prices` on the leftover list yields the
empty price list: no id can be both unmatched-by-the-feed and present in
the feed. -/
theorem stocks_then_prices_empty
    (watch_remnants : List Watch) (offer_ids : List String)
    (hnd : offer_ids.Nodup) :
    ∀ st rem, Seller.create_stocks_loop watch_remnants offer_ids = some (st, rem) →
      Seller.create_prices watch_remnants rem = [] := by
  intro st rem h
  have hrem := seller_loop_rem watch_remnants offer_ids st rem hnd h
  subst hrem
  apply seller_create_prices_nil
  intro w hw hmem
  rw [List.mem_filter] at hmem
  have hmatch : matchedBy watch_remnants w.code = true := by
    simp only [matchedBy, List.any_eq_true]
    exact ⟨w, hw, by simp⟩
  rw [hmatch] at hmem
  exact absurd hmem.2 (by decide)

/-- Concrete instance of `stocks_then_prices_empty`: feed record "a",
known ids ["a", "d"]; after the stock run the leftover list is ["d"] and
the price list is empty. -/
theorem stocks_then_prices_empty_witness :
    (["a", "d"] : List String).Nodup ∧
    Seller.create_prices [⟨"a", "5", "p"⟩] ["d"] = [] :=
  ⟨by decide,
   stocks_then_prices_empty [⟨"a", "5", "p"⟩] ["a", "d"] (by decide)
     [⟨"a", 5⟩] ["d"] (by decide)⟩

/-- C10 as stated is false for a duplicated known offer id: with feed
record "c" and known ids ["c", "c"], the stock run leaves ["c"], and the
subsequent `create_prices` call emits a price for "c". -/
theorem stocks_then_prices_duplicate_ids :
    Seller.create_stocks_loop [⟨"c", "2", "1200 руб."⟩] ["c", "c"] =
      some ([⟨"c", 2⟩], ["c"]) ∧
    Seller.create_prices [⟨"c", "2", "1200 руб."⟩] ["c"] =
      [⟨"UNKNOWN", "RUB", "c", "0", "1200"⟩] ∧
    Seller.create_prices [⟨"c", "2", "1200 руб."⟩] ["c"] ≠ [] := by
  refine ⟨by decide, by decide, by decide⟩

theorem seller_create_stocks_single (w : Watch) (ids : List String) (q : Int)
    (hm : w.code ∈ ids) (hq : stockValue w.quantity = some q) :
    Seller.create_stocks [w] ids =
      some (⟨w.code, q⟩ :: (ids.erase w.code).map (fun id => ⟨id, 0⟩)) := by
  simp [Seller.create_stocks, Seller.create_stocks_loop, hm, hq]

theorem market_create_stocks_single (w : Watch) (ids : List String) (q : Int)
    (wid date : String) (hm : w.code ∈ ids) (hq : stockValue w.quantity = some q) :
    Market.create_stocks wid date [w] ids =
      some (⟨w.code, wid, [⟨q, "FIT", date⟩]⟩ ::
        (ids.erase w.code).map (fun id => ⟨id, wid, [⟨0, "FIT", date⟩]⟩)) := by
  simp [Market.create_stocks, Market.create_stocks_loop, hm, hq]

/-- C3: for a feed record whose code matches a known offer id, both
reconcilers emit quantity 100 when the indicator string is exactly
`">10"`, 0 when it is exactly `"1"`, and the `int()`-parsed value for
any other numeric string, the whole call failing on a non-numeric
string. -/
theorem create_stocks_quantity_rule
    (w : Watch) (offer_ids : List String) (wid date : String)
    (hm : w.code ∈ offer_ids) :
    (w.quantity = ">10" →
      Seller.create_stocks [w] offer_ids =
        some (⟨w.code, 100⟩ :: (offer_ids.erase w.code).map (fun id => ⟨id, 0⟩)) ∧
      Market.create_stocks wid date [w] offer_ids =
        some (⟨w.code, wid, [⟨100, "FIT", date⟩]⟩ ::
          (offer_ids.erase w.code).map (fun id => ⟨id, wid, [⟨0, "FIT", date⟩]⟩))) ∧
    (w.quantity = "1" →
      Seller.create_stocks [w] offer_ids =
        some (⟨w.code, 0⟩ :: (offer_ids.erase w.code).map (fun id => ⟨id, 0⟩)) ∧
      Market.create_stocks wid date [w] offer_ids =
        some (⟨w.code, wid, [⟨0, "FIT", date⟩]⟩ ::
          (offer_ids.erase w.code).map (fun id => ⟨id, wid, [⟨0, "FIT", date⟩]⟩))) ∧
    (∀ q, w.quantity ≠ ">10" → w.quantity ≠ "1" → pythonInt? w.quantity = some q →
      Seller.create_stocks [w] offer_ids =
        some (⟨w.code, q⟩ :: (offer_ids.erase w.code).map (fun id => ⟨id, 0⟩)) ∧
      Market.create_stocks wid date [w] offer_ids =
        some (⟨w.code, wid, [⟨q, "FIT", date⟩]⟩ ::
          (offer_ids.erase w.code).map (fun id => ⟨id, wid, [⟨0, "FIT", date⟩]⟩))) ∧
    (w.quantity ≠ ">10" → w.quantity ≠ "1" → pythonInt? w.quantity = none →
      Seller.create_stocks [w] offer_ids = none ∧
      Market.create_stocks wid date [w] offer_ids = none) := by
  refine ⟨?_, ?_, ?_, ?_⟩
  · intro h
    have hq : stockValue w.quantity = some 100 := by simp [stockValue, h]
    exact ⟨seller_create_stocks_single w offer_ids 100 hm hq,
      market_create_stocks_single w offer_ids 100 wid date hm hq⟩
  · intro h
    have hq : stockValue w.quantity = some 0 := by
      rw [stockValue, if_neg (by rw [h]; decide), if_pos h]
    exact ⟨seller_create_stocks_single w offer_ids 0 hm hq,
      market_create_stocks_single w offer_ids 0 wid date hm hq⟩
  · intro q h1 h2 hp
    have hq : stockValue w.quantity = some q := by
      rw [stockValue, if_neg h1, if_neg h2]
      exact hp
    exact ⟨seller_create_stocks_single w offer_ids q hm hq,
      market_create_stocks_single w offer_ids q wid date hm hq⟩
  · intro h1 h2 hp
    have hq : stockValue w.quantity = none := by
      rw [stockValue, if_neg h1, if_neg h2]
      exact hp
    constructor
    · simp [Seller.create_stocks, Seller.create_stocks_loop, hm, hq]
    · simp [Market.create_stocks, Market.create_stocks_loop, hm, hq]

/-- Concrete instance of `create_stocks_quantity_rule`: indicator ">10"
yields stock 100 for offer "w1". -/
theorem create_stocks_quantity_rule_witness :
    ("w1" ∈ (["w1", "w2"] : List String)) ∧
    (Seller.create_stocks [⟨"w1", ">10", "p"⟩] ["w1", "w2"] =
      some (⟨"w1", 100⟩ :: ((["w1", "w2"] : List String).erase "w1").map
        (fun id => (⟨id, 0⟩ : Seller.StockEntry))) ∧
     Market.create_stocks "W" "D" [⟨"w1", ">10", "p"⟩] ["w1", "w2"] =
      some (⟨"w1", "W", [⟨100, "FIT", "D"⟩]⟩ ::
        ((["w1", "w2"] : List String).erase "w1").map
          (fun id => (⟨id, "W", [⟨0, "FIT", "D"⟩]⟩ : Market.StockEntry)))) :=
  ⟨by decide,
   (create_stocks_quantity_rule ⟨"w1", ">10", "p"⟩ ["w1", "w2"] "W" "D"
     (by decide)).1 rfl⟩

theorem seller_create_prices_eq (ws : List Watch) (ids : List String) :
    Seller.create_prices ws ids =
      (ws.filter (fun w => decide (w.code ∈ ids))).map
        (fun w => ⟨"UNKNOWN", "RUB", w.code, "0", price_conversion w.price⟩) := by
  induction ws with
  | nil => rfl
  | cons w ws2 ih =>
    simp only [Seller.create_prices]
    by_cases hm : w.code ∈ ids
    · simp [List.filter_cons, hm, ih]
    · simp [List.filter_cons, hm, ih]

theorem market_create_prices_ids :
    ∀ (ws : List Watch) (ids : List String) (res : List Market.PriceEntry),
    Market.create_prices ws ids = some res →
    res.map (fun e => e.id) =
      (ws.filter (fun w => decide (w.code ∈ ids))).map (fun w => w.code) := by
  intro ws
  induction ws with
  | nil =>
    intro ids res h
    simp only [Market.create_prices, Option.some.injEq] at h
    subst h
    rfl
  | cons w ws2 ih =>
    intro ids res h
    simp only [Market.create_prices] at h
    by_cases hm : w.code ∈ ids
    · rw [if_pos hm] at h
      cases hp : pythonInt? (price_conversion w.price) with
      | none =>
        rw [hp] at h
        simp at h
      | some v =>
        rw [hp] at h
        cases hr : Market.create_prices ws2 ids with
        | none =>
          rw [hr] at h
          simp at h
        | some rest =>
          rw [hr] at h
          simp only [Option.some.injEq] at h
          subst h
          simp [List.filter_cons, hm, ih ids rest hr]
    · rw [if_neg hm] at h
      simp [List.filter_cons, hm, ih ids res h]

/-- C7: `create_prices` emits one PriceUpdate per feed record whose code
is among the known offer ids; the id of every emitted entry occurs in
the feed and is a known id, so ids absent from the feed produce no price
output and there is no zero-fill — in both integrations. -/
theorem create_prices_only_matched
    (watch_remnants : List Watch) (offer_ids : List String) :
    Seller.create_prices watch_remnants offer_ids =
      (watch_remnants.filter (fun w => decide (w.code ∈ offer_ids))).map
        (fun w => ⟨"UNKNOWN", "RUB", w.code, "0", price_conversion w.price⟩) ∧
    (∀ e ∈ Seller.create_prices watch_remnants offer_ids,
      matchedBy watch_remnants e.offer_id = true ∧ e.offer_id ∈ offer_ids) ∧
    (∀ res, Market.create_prices watch_remnants offer_ids = some res →
      res.map (fun e => e.id) =
        (watch_remnants.filter (fun w => decide (w.code ∈ offer_ids))).map
          (fun w => w.code) ∧
      ∀ e ∈ res, matchedBy watch_remnants e.id = true ∧ e.id ∈ offer_ids) := by
  refine ⟨seller_create_prices_eq watch_remnants offer_ids, ?_, ?_⟩
  · intro e he
    rw [seller_create_prices_eq] at he
    rw [List.mem_map] at he
    obtain ⟨w, hw, rfl⟩ := he
    rw [List.mem_filter] at hw
    refine ⟨?_, by simpa using hw.2⟩
    simp only [matchedBy, List.any_eq_true]
    exact ⟨w, hw.1, by simp⟩
  · intro res hres
    refine ⟨market_create_prices_ids watch_remnants offer_ids res hres, ?_⟩
    intro e he
    have hid : e.id ∈ res.map (fun e => e.id) := List.mem_map_of_mem _ he
    rw [market_create_prices_ids watch_remnants offer_ids res hres] at hid
    rw [List.mem_map] at hid
    obtain ⟨w, hw, hcode⟩ := hid
    rw [List.mem_filter] at hw
    constructor
    · simp only [matchedBy, List.any_eq_true]
      exact ⟨w, hw.1, by simp [hcode]⟩
    · rw [← hcode]
      simpa using hw.2

/-- Concrete instance of `create_prices_only_matched`: one feed record
matching id "a"; one seller entry and one market entry, none zero-filled. -/
theorem create_prices_only_matched_witness :
    Seller.create_prices [⟨"a", "5", "1200 руб."⟩] ["a"] =
      (([⟨"a", "5", "1200 руб."⟩] : List Watch).filter
        (fun w => decide (w.code ∈ (["a"] : List String)))).map
          (fun w => ⟨"UNKNOWN", "RUB", w.code, "0", price_conversion w.price⟩) ∧
    (([⟨"a", 1200, "RUR"⟩] : List Market.PriceEntry).map (fun e => e.id) =
      (([⟨"a", "5", "1200 руб."⟩] : List Watch).filter
        (fun w => decide (w.code ∈ (["a"] : List String)))).map (fun w => w.code) ∧
     ∀ e ∈ ([⟨"a", 1200, "RUR"⟩] : List Market.PriceEntry),
       matchedBy [⟨"a", "5", "1200 руб."⟩] e.id = true ∧
       e.id ∈ (["a"] : List String)) :=
  ⟨(create_prices_only_matched [⟨"a", "5", "1200 руб."⟩] ["a"]).1,
   (create_prices_only_matched [⟨"a", "5", "1200 руб."⟩] ["a"]).2.2
     [⟨"a", 1200, "RUR"⟩] (by decide)⟩

/-- C9: `upload_stocks` returns a pair `(not_empty, stocks)` in which
`not_empty` is exactly the order-preserving sublist of `stocks` whose
stock/count value is nonzero; every element of `not_empty` occurs in
`stocks`, and zero-quantity updates appear only in the second
component — in both integrations. -/
theorem upload_stocks_partition
    (watch_remnants : List Watch) (offer_ids : List String) (wid date : String) :
    (∀ ne st, Seller.upload_stocks watch_remnants offer_ids = some (ne, st) →
      ne = st.filter (fun e => e.stock != 0) ∧
      List.Sublist ne st ∧
      (∀ e ∈ st, e.stock = 0 → e ∉ ne) ∧
      (∀ e ∈ ne, e ∈ st ∧ e.stock ≠ 0)) ∧
    (∀ ne st, Market.upload_stocks wid date watch_remnants offer_ids = some (ne, st) →
      ne = st.filter (fun e => Market.firstCount e != 0) ∧
      List.Sublist ne st ∧
      (∀ e ∈ st, Market.firstCount e = 0 → e ∉ ne) ∧
      (∀ e ∈ ne, e ∈ st ∧ Market.firstCount e ≠ 0)) := by
  constructor
  · intro ne st h
    simp only [Seller.upload_stocks] at h
    cases hc : Seller.create_stocks watch_remnants offer_ids with
    | none =>
      rw [hc] at h
      simp at h
    | some stocks =>
      rw [hc] at h
      simp only [Option.some.injEq, Prod.mk.injEq] at h
      obtain ⟨hne, hst⟩ := h
      subst hst
      subst hne
      refine ⟨rfl, List.filter_sublist _, ?_, ?_⟩
      · intro e he h0 hmem
        rw [List.mem_filter] at hmem
        simp [h0] at hmem
      · intro e he
        rw [List.mem_filter] at he
        exact ⟨he.1, by simpa using he.2⟩
  · intro ne st h
    simp only [Market.upload_stocks] at h
    cases hc : Market.create_stocks wid date watch_remnants offer_ids with
    | none =>
      rw [hc] at h
      simp at h
    | some stocks =>
      rw [hc] at h
      simp only [Option.some.injEq, Prod.mk.injEq] at h
      obtain ⟨hne, hst⟩ := h
      subst hst
      subst hne
      refine ⟨rfl, List.filter_sublist _, ?_, ?_⟩
      · intro e he h0 hmem
        rw [List.mem_filter] at hmem
        simp [h0] at hmem
      · intro e he
        rw [List.mem_filter] at he
        exact ⟨he.1, by simpa using he.2⟩

/-- Concrete instance of `upload_stocks_partition`: stocks
`[("a",5), ("b",0)]`; only `("a",5)` lands in `not_empty`. -/
theorem upload_stocks_partition_witness :
    (([⟨"a", 5⟩] : List Seller.StockEntry) =
      ([⟨"a", 5⟩, ⟨"b", 0⟩] : List Seller.StockEntry).filter
        (fun e => e.stock != 0)) ∧
    List.Sublist ([⟨"a", 5⟩] : List Seller.StockEntry) [⟨"a", 5⟩, ⟨"b", 0⟩] ∧
    (∀ e ∈ ([⟨"a", 5⟩, ⟨"b", 0⟩] : List Seller.StockEntry),
      e.stock = 0 → e ∉ ([⟨"a", 5⟩] : List Seller.StockEntry)) ∧
    (∀ e ∈ ([⟨"a", 5⟩] : List Seller.StockEntry),
      e ∈ ([⟨"a", 5⟩, ⟨"b", 0⟩] : List Seller.StockEntry) ∧ e.stock ≠ 0) :=
  (upload_stocks_partition [⟨"a", "5", "p"⟩] ["a", "b"] "W" "D").1
    [⟨"a", 5⟩] [⟨"a", 5⟩, ⟨"b", 0⟩] (by decide)

theorem market_loop_stops (pages : Nat → Market.ListResult) :
    ∀ (m i : Nat) (acc : List Market.MappingEntry),
    (pages (i + m)).nextPageToken = "" →
    ∃ r, Market.get_offer_ids_loop pages (m + 1) i acc = some r := by
  intro m
  induction m with
  | zero =>
    intro i acc h
    rw [Nat.add_zero] at h
    refine ⟨acc ++ (pages i).offerMappingEntries, ?_⟩
    simp only [Market.get_offer_ids_loop]
    rw [if_pos h]
  | succ m ih =>
    intro i acc h
    simp only [Market.get_offer_ids_loop]
    by_cases ht : (pages i).nextPageToken = ""
    · exact ⟨_, by rw [if_pos ht]⟩
    · rw [if_neg ht]
      apply ih (i + 1)
      rw [show i + 1 + m = i + (m + 1) by omega]
      exact h

theorem market_loop_mono (pages : Nat → Market.ListResult) :
    ∀ (f1 f2 i : Nat) (acc : List Market.MappingEntry) (r : List Market.MappingEntry),
    f1 ≤ f2 → Market.get_offer_ids_loop pages f1 i acc = some r →
    Market.get_offer_ids_loop pages f2 i acc = some r := by
  intro f1
  induction f1 with
  | zero =>
    intro f2 i acc r _ h
    simp [Market.get_offer_ids_loop] at h
  | succ f ih =>
    intro f2 i acc r hle h
    cases f2 with
    | zero => omega
    | succ f2 =>
      simp only [Market.get_offer_ids_loop] at h ⊢
      by_cases ht : (pages i).nextPageToken = ""
      · rw [if_pos ht] at h ⊢
        exact h
      · rw [if_neg ht] at h ⊢
        exact ih f2 (i + 1) _ r (by omega) h

theorem seller_loop_stops (pages : Nat → Seller.ListResult) :
    ∀ (m i : Nat) (acc : List Seller.Product),
    acc.length + Seller.pagesLen pages i (m + 1) = (pages (i + m)).total →
    ∃ r, Seller.get_offer_ids_loop pages (m + 1) i acc = some r := by
  intro m
  induction m with
  | zero =>
    intro i acc h
    have h2 : acc.length + ((pages i).items.length + 0) = (pages i).total := h
    refine ⟨acc ++ (pages i).items, ?_⟩
    simp only [Seller.get_offer_ids_loop]
    rw [if_pos]
    rw [List.length_append]
    omega
  | succ m ih =>
    intro i acc h
    simp only [Seller.get_offer_ids_loop]
    by_cases ht : (pages i).total = (acc ++ (pages i).items).length
    · exact ⟨_, by rw [if_pos ht]⟩
    · rw [if_neg ht]
      apply ih (i + 1)
      have hu : Seller.pagesLen pages i (m + 1 + 1) =
          (pages i).items.length + Seller.pagesLen pages (i + 1) (m + 1) := rfl
      rw [hu] at h
      rw [show i + 1 + m = i + (m + 1) by omega, List.length_append]
      omega

theorem seller_loop_mono (pages : Nat → Seller.ListResult) :
    ∀ (f1 f2 i : Nat) (acc : List Seller.Product) (r : List Seller.Product),
    f1 ≤ f2 → Seller.get_offer_ids_loop pages f1 i acc = some r →
    Seller.get_offer_ids_loop pages f2 i acc = some r := by
  intro f1
  induction f1 with
  | zero =>
    intro f2 i acc r _ h
    simp [Seller.get_offer_ids_loop] at h
  | succ f ih =>
    intro f2 i acc r hle h
    cases f2 with
    | zero => omega
    | succ f2 =>
      simp only [Seller.get_offer_ids_loop] at h ⊢
      by_cases ht : (pages i).total = (acc ++ (pages i).items).length
      · rw [if_pos ht] at h ⊢
        exact h
      · rw [if_neg ht] at h ⊢
        exact ih f2 (i + 1) _ r (by omega) h

/-- C5: both offer enumerators terminate after finitely many pages for
every correctly terminating response sequence: once some page `k`
returns an empty `nextPageToken` (Yandex) or the accumulated item count
reaches the advertised `total` at page `j` (Ozon), the loop stops within
`k + 1` (resp. `j + 1`) calls and its result is stable for every larger
fuel bound — regardless of page sizes. -/
theorem pagination_terminates
    (mpages : Nat → Market.ListResult) (opages : Nat → Seller.ListResult)
    (k j : Nat)
    (hm : (mpages k).nextPageToken = "")
    (ho : Seller.pagesLen opages 0 (j + 1) = (opages j).total) :
    (∃ r, ∀ f, k + 1 ≤ f → Market.get_offer_ids mpages f = some r) ∧
    (∃ r, ∀ f, j + 1 ≤ f → Seller.get_offer_ids opages f = some r) := by
  constructor
  · obtain ⟨r, hr⟩ := market_loop_stops mpages k 0 []
      (by rw [Nat.zero_add]; exact hm)
    refine ⟨r.map (fun e => e.offer.shopSku), ?_⟩
    intro f hf
    unfold Market.get_offer_ids
    rw [market_loop_mono mpages (k + 1) f 0 [] r hf hr]
    rfl
  · obtain ⟨r, hr⟩ := seller_loop_stops opages j 0 []
      (by rw [Nat.zero_add]; simpa using ho)
    refine ⟨r.map Seller.Product.offer_id, ?_⟩
    intro f hf
    unfold Seller.get_offer_ids
    rw [seller_loop_mono opages (j + 1) f 0 [] r hf hr]
    rfl

/-- Concrete instance of `pagination_terminates`: a Yandex feed whose
first page already has an empty token, and an Ozon feed of two pages of
one item each whose second response advertises `total = 2`; both
enumerators stop and stay stable at any larger fuel. -/
theorem pagination_terminates_witness :
    ((fun _ => ⟨[⟨⟨"s1"⟩⟩], ""⟩ : Nat → Market.ListResult) 0).nextPageToken = "" ∧
    Seller.pagesLen (fun i => ⟨[⟨"p1"⟩], if i = 0 then 5 else 2, "t"⟩) 0 (1 + 1) =
      ((fun i => ⟨[⟨"p1"⟩], if i = 0 then 5 else 2, "t"⟩ : Nat → Seller.ListResult) 1).total ∧
    ((∃ r, ∀ f, 0 + 1 ≤ f →
        Market.get_offer_ids (fun _ => ⟨[⟨⟨"s1"⟩⟩], ""⟩) f = some r) ∧
     (∃ r, ∀ f, 1 + 1 ≤ f →
        Seller.get_offer_ids (fun i => ⟨[⟨"p1"⟩], if i = 0 then 5 else 2, "t"⟩) f = some r)) :=
  ⟨rfl, rfl,
   pagination_terminates (fun _ => ⟨[⟨⟨"s1"⟩⟩], ""⟩)
     (fun i => ⟨[⟨"p1"⟩], if i = 0 then 5 else 2, "t"⟩) 0 1 rfl rfl⟩

theorem runUpload_all_ok {α : Type} (outcome : UploadOutcome α) :
    ∀ chunks : List (List α), (∀ c ∈ chunks, outcome c = none) →
    runUpload outcome chunks = (chunks, none) := by
  intro chunks
  induction chunks with
  | nil => intro _; rfl
  | cons c cs ih =>
    intro h
    simp only [runUpload]
    rw [h c (List.mem_cons_self c cs)]
    rw [ih (fun x hx => h x (List.mem_cons_of_mem c hx))]

theorem runUpload_trace_front {α : Type} (outcome : UploadOutcome α) :
    ∀ chunks : List (List α), ∃ rest, chunks = (runUpload outcome chunks).1 ++ rest := by
  intro chunks
  induction chunks with
  | nil => exact ⟨[], rfl⟩
  | cons c cs ih =>
    simp only [runUpload]
    cases h : outcome c with
    | some e => exact ⟨cs, rfl⟩
    | none =>
      obtain ⟨rest, hrest⟩ := ih
      exact ⟨rest, by rw [List.cons_append, ← hrest]⟩

theorem runUpload_error_from_call {α : Type} (outcome : UploadOutcome α) :
    ∀ (chunks : List (List α)) (e : PyErr),
    (runUpload outcome chunks).2 = some e →
    ∃ c ∈ (runUpload outcome chunks).1, outcome c = some e := by
  intro chunks
  induction chunks with
  | nil =>
    intro e h
    simp [runUpload] at h
  | cons c cs ih =>
    intro e h
    simp only [runUpload] at h ⊢
    cases hc : outcome c with
    | some e2 =>
      rw [hc] at h
      exact ⟨c, List.mem_cons_self c [], by rw [hc]; exact h⟩
    | none =>
      rw [hc] at h
      obtain ⟨c2, hc2, ho⟩ := ih e h
      exact ⟨c2, List.mem_cons_of_mem c hc2, ho⟩

/-- C8: the batch upload loop issues exactly one sequential call per
chunk when all calls succeed, the submitted chunks are always a prefix
of the chunk list (no chunk is retried or resubmitted), any raised
upload error is the error of an actually-submitted chunk and is
propagated to the caller, and the three exception categories are caught
only by the top-level `main` handler, which turns every error into a
printed message. -/
theorem upload_batches_sequential_propagate :
    (∀ (outcome : UploadOutcome Seller.PriceEntry) (watch_remnants : List Watch)
       (offer_ids : List String) (sz : Nat),
      (∀ c ∈ divide (Seller.create_prices watch_remnants offer_ids) sz, outcome c = none) →
      upload_prices_calls watch_remnants offer_ids sz outcome =
        (divide (Seller.create_prices watch_remnants offer_ids) sz, none)) ∧
    (∀ {α : Type} (outcome : UploadOutcome α) (chunks : List (List α)),
      ∃ rest, chunks = (runUpload outcome chunks).1 ++ rest) ∧
    (∀ {α : Type} (outcome : UploadOutcome α) (chunks : List (List α)) (e : PyErr),
      (runUpload outcome chunks).2 = some e →
      ∃ c ∈ (runUpload outcome chunks).1, outcome c = some e) ∧
    (∀ e : PyErr, (mainHandle (Except.error e)).isSome = true) := by
  refine ⟨?_, ?_, ?_, ?_⟩
  · intro outcome watch_remnants offer_ids sz h
    exact runUpload_all_ok outcome _ h
  · intro α outcome chunks
    exact runUpload_trace_front outcome chunks
  · intro α outcome chunks e h
    exact runUpload_error_from_call outcome chunks e h
  · intro e
    cases e <;> rfl

/-- Concrete instance of `upload_batches_sequential_propagate`: an
always-succeeding outcome submits every chunk of the one-record price
payload exactly once, and `main` converts a read timeout into a
message. -/
theorem upload_batches_sequential_propagate_witness :
    upload_prices_calls [⟨"a", "5", "1200 руб."⟩] ["a"] 1 (fun _ => none) =
      (divide (Seller.create_prices [⟨"a", "5", "1200 руб."⟩] ["a"]) 1, none) ∧
    (mainHandle (Except.error PyErr.readTimeout)).isSome = true :=
  ⟨upload_batches_sequential_propagate.1 (fun _ => none)
     [⟨"a", "5", "1200 руб."⟩] ["a"] 1 (fun _ _ => rfl),
   upload_batches_sequential_propagate.2.2.2 PyErr.readTimeout⟩
